import Mathlib

/-!
Verification of the `bifsi` fixed-size big-unsigned-integer kernel (`bifsi.h`).

The library is configured with `el_t = uint32_t` (one limb = 32 bits) and
`tw_t = uint64_t` (the double-limb scratch type).  A `bui<N>` stores
`N / 32` limbs, least-significant limb first.  We embed a magnitude as a
`List Nat` of limbs (least-significant first); the representation invariant
is that every limb is `< 2 ^ 32`.  Machine arithmetic is modelled on `Nat`
with explicit `% 2 ^ 32` / `% 2 ^ 64` wherever the C++ unsigned types wrap.

Each definition below is a direct translation of the corresponding function
of `bifsi.h`; the doc comments name the source functions.
-/

namespace Bifsi

/-- Bit width of one limb: `EL_SIZE_IN_BITS` for `el_t = uint32_t`. -/
def elBits : Nat := 32

/-- `2 ^ 32`, the modulus of the limb type `el_t`. -/
def elM : Nat := 2 ^ elBits

/-- `2 ^ 64`, the modulus of the double-limb type `tw_t = uint64_t`. -/
def twM : Nat := 2 ^ (2 * elBits)

/-- The value represented by a limb list (least-significant limb first):
`Σ limb[i] * (2^32)^i`, as in the `bui` data model. -/
def toVal : List Nat → Nat
  | [] => 0
  | e :: es => e + elM * toVal es

/-- Second phase of `bui::operator_pluseq_uint` (the loop for
`i` in `B_EL_COUNT..SIZE_IN_ELS`): `el[i] += carry; carry = (el[i] < carry);`.
Addition of `el_t` values wraps modulo `2^32`. -/
def carryLoop : List Nat → Nat → List Nat
  | [], _ => []
  | e :: es, c =>
    let e1 := (e + c) % elM
    let c1 := if e1 < c then 1 else 0
    e1 :: carryLoop es c1

/-- First phase of `bui::operator_pluseq_uint` (the loop for `i` in
`0..B_EL_COUNT`), followed by the carry-only second phase once the first
`k` limbs are consumed.  Per limb:
`el[i] += carry; carry = (el[i] < carry);
 b_i = (el_t)(b >> i*EL_SIZE_IN_BITS); el[i] += b_i; carry |= (el[i] < b_i);`.
The slice `(el_t)(b >> i*32)` is obtained here by passing `b / 2^32` to the
recursive call, so the slice consumed at each step is `b % 2^32`. -/
def addLoop : Nat → List Nat → Nat → Nat → List Nat
  | 0, es, _, c => carryLoop es c
  | _ + 1, [], _, _ => []
  | k + 1, e :: es, b, c =>
    let e1 := (e + c) % elM
    let c1 := if e1 < c then 1 else 0
    let bi := b % elM
    let e2 := (e1 + bi) % elM
    let c2 := c1 ||| (if e2 < bi then 1 else 0)
    e2 :: addLoop k es (b / elM) c2

/-- `bui::operator_pluseq_uint<UINT_T>(b)`: `opEls` is
`sizeof(UINT_T) / sizeof(el_t)` (an operand narrower than one limb is first
cast to `el_t`, i.e. `opEls = 1`), `B_EL_COUNT = min(opEls, SIZE_IN_ELS)`,
and the carry starts at `0`. -/
def operator_pluseq_uint (opEls : Nat) (es : List Nat) (b : Nat) : List Nat :=
  addLoop (min opEls es.length) es b 0

/-- 32-bit wrapping subtraction of `el_t` values (valid model for `b ≤ 2^32`). -/
def sub32 (a b : Nat) : Nat := (a + elM - b) % elM

/-- Second phase of `bui::operator_minuseq_uint` (the loop for
`i` in `B_EL_COUNT..SIZE_IN_ELS`):
`el_t el_i_before = el[i]; el[i] -= carry; carry = (el[i] > el_i_before);`. -/
def borrowLoop : List Nat → Nat → List Nat
  | [], _ => []
  | e :: es, c =>
    let e1 := sub32 e c
    let c1 := if e1 > e then 1 else 0
    e1 :: borrowLoop es c1

/-- First phase of `bui::operator_minuseq_uint` (the loop for `i` in
`0..B_EL_COUNT`), followed by the borrow-only second phase.  Per limb:
`el[i] -= carry; carry = (el[i] > el_i_before);
 b_i = (el_t)(b >> i*EL_SIZE_IN_BITS); el[i] -= b_i; carry |= (el[i] > el_i_before);`,
with the operand slices consumed as in `addLoop`. -/
def subLoop : Nat → List Nat → Nat → Nat → List Nat
  | 0, es, _, c => borrowLoop es c
  | _ + 1, [], _, _ => []
  | k + 1, e :: es, b, c =>
    let e1 := sub32 e c
    let c1 := if e1 > e then 1 else 0
    let bi := b % elM
    let e2 := sub32 e1 bi
    let c2 := c1 ||| (if e2 > e1 then 1 else 0)
    e2 :: subLoop k es (b / elM) c2

/-- `bui::operator_minuseq_uint<UINT_T>(b)`, analogous to
`operator_pluseq_uint`. -/
def operator_minuseq_uint (opEls : Nat) (es : List Nat) (b : Nat) : List Nat :=
  subLoop (min opEls es.length) es b 0

/-- `static_cast<std::make_unsigned_t<INT_T>>(v)` for a `w`-bit operand:
the value modulo `2^w` (two's-complement reinterpretation). -/
def toUns (w : Nat) (b : Int) : Nat := (b % ((2 : Int) ^ w)).toNat

/-- The most negative value of a `w`-bit signed type. -/
def intMin (w : Nat) : Int := -((2 : Int) ^ (w - 1))

/-- C++ negation `-b` of a `w`-bit signed value: the most negative value
negates to itself (formally signed-overflow UB in C++; this models the
two's-complement wraparound of the targets the library addresses). -/
def negWrap (w : Nat) (b : Int) : Int := if b = intMin w then b else -b

/-- Number of operand limbs of a `w`-bit native operand as used by
`operator_pluseq_uint` / `operator_minuseq_uint`: an operand narrower than a
limb is cast to `el_t` first. -/
def opElsOf (w : Nat) : Nat := if w ≤ elBits then 1 else w / elBits

/-- `bui::operator+=(INT_T)` for a signed `w`-bit operand: a non-negative
operand is reinterpreted as unsigned and added; a negative operand is
negated (wrapping), reinterpreted, and subtracted. -/
def operator_pluseq (w : Nat) (es : List Nat) (b : Int) : List Nat :=
  if 0 ≤ b then operator_pluseq_uint (opElsOf w) es (toUns w b)
  else operator_minuseq_uint (opElsOf w) es (toUns w (-b))

/-- `bui::operator-=(INT_T)` for a signed `w`-bit operand, symmetric to
`operator_pluseq`. -/
def operator_minuseq (w : Nat) (es : List Nat) (b : Int) : List Nat :=
  if 0 ≤ b then operator_minuseq_uint (opElsOf w) es (toUns w b)
  else operator_pluseq_uint (opElsOf w) es (toUns w (-b))

/-- Value of the double-limb remainder register after scanning limbs in
most-significant-first order starting from `acc`:
`valMSF es acc = acc * (2^32)^len(es) + (value of es read MSF)`. -/
def valMSF : List Nat → Nat → Nat
  | [], acc => acc
  | e :: es, acc => valMSF es (acc * elM + e)

/-- Loop body of `bui::operator/=(el_t)` over the limbs in most-significant
first order:
`tw <<= EL_SIZE_IN_BITS; tw |= el[i]; el[i] = (el_t)(tw / b); tw %= b;`
(`tw` is `tw_t = uint64_t`, so the shift wraps modulo `2^64` and the stored
quotient limb is truncated to `el_t`).  Returns the quotient limbs
(most-significant first) and the final remainder register. -/
def divLoop (b : Nat) : List Nat → Nat → List Nat × Nat
  | [], r => ([], r)
  | e :: es, r =>
    let t := ((r <<< elBits) % twM) ||| e
    let q := (t / b) % elM
    let p := divLoop b es (t % b)
    (q :: p.1, p.2)

/-- `bui::operator/=(const el_t &b)`: iterates `divLoop` from the highest
limb down (hence over the reversed limb list), the quotient replaces the
limbs, and `(el_t) tw` — the remainder — is returned. -/
def operator_diveq (es : List Nat) (b : Nat) : List Nat × Nat :=
  let p := divLoop b es.reverse 0
  (p.1.reverse, p.2 % elM)

/-- Loop body of `bui::operator%(el_t) const`:
`tw <<= EL_SIZE_IN_BITS; tw |= el[i]; tw %= b;` — the same scan as
`divLoop` but no quotient limb is written. -/
def modLoop (b : Nat) : List Nat → Nat → Nat
  | [], r => r
  | e :: es, r =>
    let t := ((r <<< elBits) % twM) ||| e
    modLoop b es (t % b)

/-- `bui::operator%(const el_t &b) const`: most-significant-first scan
keeping only the remainder register; the method is `const`, so the limbs
are left untouched by construction; returns `(el_t) tw`. -/
def operator_mod (es : List Nat) (b : Nat) : Nat := modLoop b es.reverse 0 % elM

/-- `bui::operator_muleq_uint` for a limb-width operand
(`sizeof(UINT_T) == sizeof(el_t)`): a single running double-limb
accumulator, per limb
`tw += ((tw_t) el[i]) * b; el[i] = (el_t) tw; tw >>= EL_SIZE_IN_BITS;`. -/
def mulElLoop : List Nat → Nat → Nat → List Nat
  | [], _, _ => []
  | e :: es, b, t =>
    let t1 := (t + e * b) % twM
    t1 % elM :: mulElLoop es b (t1 >>> elBits)

/-- `bui::operator_muleq_uint<UINT_T>(b)` with `UINT_T = el_t`, accumulator
starting at `0`. -/
def operator_muleq_uint_el (es : List Nat) (b : Nat) : List Nat :=
  mulElLoop es b 0

/-- `bui::operator_muleq_uint` for a double-limb operand
(`sizeof(UINT_T) == 2 * sizeof(el_t)`), translated literally: per limb
`tw += ((tw_t) b_0) * el[i]; el[i] = (el_t) tw; tw >>= EL_SIZE_IN_BITS;
 ui += b_upper * el[i]; tw += (el_t) ui; ui >>= EL_SIZE_IN_BITS;`.
Note that `ui += b_upper * el[i]` reads `el[i]` after the preceding
assignment overwrote it with the low-chain digit. -/
def mulTwLoop : List Nat → Nat → Nat → Nat → Nat → List Nat
  | [], _, _, _, _ => []
  | e :: es, b0, bh, t, u =>
    let t1 := (t + b0 * e) % twM
    let enew := t1 % elM
    let t2 := t1 >>> elBits
    let u1 := (u + bh * enew) % twM
    let t3 := (t2 + u1 % elM) % twM
    enew :: mulTwLoop es b0 bh t3 (u1 >>> elBits)

/-- `bui::operator_muleq_uint<UINT_T>(b)` with `UINT_T = tw_t`:
`b_0 = (el_t) b; b_upper = b >> EL_SIZE_IN_BITS; ui = 0; tw = 0;` then the
per-limb loop of `mulTwLoop`. -/
def operator_muleq_uint_tw (es : List Nat) (b : Nat) : List Nat :=
  mulTwLoop es (b % elM) (b >>> elBits) 0 0

/-- `bui::loshift_bits<WIDTH>()` (`WIDTH < EL_SIZE_IN_BITS`): after the
in-place loop
`el[0] >>= W; for i in 1..n { el[i-1] |= el[i] << (32 - W); el[i] >>= W; }`,
limb `i < n-1` holds `(el[i] >> W) | ((el[i+1] << (32-W)) mod 2^32)` (the
`el_t` left shift wraps modulo `2^32`) and the top limb holds
`el[n-1] >> W`; this recursion produces exactly those limbs. -/
def loshift_bits (W : Nat) : List Nat → List Nat
  | [] => []
  | [e] => [e >>> W]
  | e :: e2 :: es =>
    ((e >>> W) ||| ((e2 <<< (elBits - W)) % elM)) :: loshift_bits W (e2 :: es)

/-- `bui::loshift_1el()`: every limb moves one position toward the lower
index and the vacated top limb becomes `0`. -/
def loshift_1el : List Nat → List Nat
  | [] => []
  | _ :: es => es ++ [0]

/-- `assert_unsigned_int_type<UINT_T>()`: a compile-time integrality check
followed by the runtime `assert(std::is_unsigned_v<UINT_T>)`; modelled as a
guard that aborts (`none`) when the instantiating type is signed. -/
def assert_unsigned (isUns : Bool) : Option Unit :=
  if isUns then some () else none

/-- `bui::as_uint<UINT_T>()` for a `k`-limb target: the low `k` limbs
combined, `el[0] | el[1] << 32 | ...`. -/
def as_uint (k : Nat) (es : List Nat) : Nat := toVal (es.take k)

/-- `bui::is_nonzero_starting_at_el<K>()`: ORs `el[i] != 0` over `i >= K`. -/
def is_nonzero_from (k : Nat) (es : List Nat) : Bool :=
  (es.drop k).any (fun e => e != 0)

/-- `bui::is_zero_starting_at_el<K>()`: ANDs `el[i] == 0` over `i >= K`. -/
def is_zero_from (k : Nat) (es : List Nat) : Bool :=
  (es.drop k).all (fun e => e == 0)

/-- `bui::operator_gt_uint<UINT_T>(b)` for a `w`-bit operand type of
signedness flag `isUns`: after `assert_unsigned_int_type`, compares the low
limb(s) against `b` and ORs in `is_nonzero_starting_at_el`.  A signed
instantiation fails the assert, modelled as `none`. -/
def operator_gt_uint (isUns : Bool) (w : Nat) (es : List Nat) (b : Nat) :
    Option Bool :=
  (assert_unsigned isUns).map (fun _ =>
    if w ≤ elBits then decide (es.headD 0 > b) || is_nonzero_from 1 es
    else decide (as_uint (w / elBits) es > b) || is_nonzero_from (w / elBits) es)

/-- `bui::operator_lt_uint<UINT_T>(b)`, analogous (ANDs in
`is_zero_starting_at_el`). -/
def operator_lt_uint (isUns : Bool) (w : Nat) (es : List Nat) (b : Nat) :
    Option Bool :=
  (assert_unsigned isUns).map (fun _ =>
    if w ≤ elBits then decide (es.headD 0 < b) && is_zero_from 1 es
    else decide (as_uint (w / elBits) es < b) && is_zero_from (w / elBits) es)

/-- `bui::operator_geq_uint<UINT_T>(b)`. -/
def operator_geq_uint (isUns : Bool) (w : Nat) (es : List Nat) (b : Nat) :
    Option Bool :=
  (assert_unsigned isUns).map (fun _ =>
    if w ≤ elBits then decide (es.headD 0 ≥ b) || is_nonzero_from 1 es
    else decide (as_uint (w / elBits) es ≥ b) || is_nonzero_from (w / elBits) es)

/-- `bui::operator_leq_uint<UINT_T>(b)`. -/
def operator_leq_uint (isUns : Bool) (w : Nat) (es : List Nat) (b : Nat) :
    Option Bool :=
  (assert_unsigned isUns).map (fun _ =>
    if w ≤ elBits then decide (es.headD 0 ≤ b) && is_zero_from 1 es
    else decide (as_uint (w / elBits) es ≤ b) && is_zero_from (w / elBits) es)

/-- `bui::operator_neq_uint<UINT_T>(b)`. -/
def operator_neq_uint (isUns : Bool) (w : Nat) (es : List Nat) (b : Nat) :
    Option Bool :=
  (assert_unsigned isUns).map (fun _ =>
    if w ≤ elBits then decide (es.headD 0 ≠ b) || is_nonzero_from 1 es
    else decide (as_uint (w / elBits) es ≠ b) || is_nonzero_from (w / elBits) es)

/-- `bui::operator_eq_uint<UINT_T>(b)`. -/
def operator_eq_uint (isUns : Bool) (w : Nat) (es : List Nat) (b : Nat) :
    Option Bool :=
  (assert_unsigned isUns).map (fun _ =>
    if w ≤ elBits then decide (es.headD 0 = b) && is_zero_from 1 es
    else decide (as_uint (w / elBits) es = b) && is_zero_from (w / elBits) es)

/-- `bui::operator>(INT_T)` for a signed `w`-bit operand:
`return (b < 0) | operator_gt_uint(b);` — the RAW signed type is passed, so
`operator_gt_uint` is instantiated with a signed `UINT_T` and its assert
fires; the operand value itself would convert to unsigned inside the limb
comparison, modelled by `toUns`. -/
def operator_gt (w : Nat) (es : List Nat) (b : Int) : Option Bool :=
  (operator_gt_uint false w es (toUns w b)).map (fun r => decide (b < 0) || r)

/-- `bui::operator<(INT_T)` for a signed operand:
`return (b >= 0) & operator_lt_uint(b);` — again passing the raw signed
type. -/
def operator_lt (w : Nat) (es : List Nat) (b : Int) : Option Bool :=
  (operator_lt_uint false w es (toUns w b)).map (fun r => decide (0 ≤ b) && r)

/-- `bui::operator>=(INT_T)` for a signed operand:
`return (b < 0) | operator_geq_uint(b);`. -/
def operator_geq (w : Nat) (es : List Nat) (b : Int) : Option Bool :=
  (operator_geq_uint false w es (toUns w b)).map (fun r => decide (b < 0) || r)

/-- `bui::operator<=(INT_T)` for a signed operand:
`return (b >= 0) & operator_leq_uint(b);`. -/
def operator_leq (w : Nat) (es : List Nat) (b : Int) : Option Bool :=
  (operator_leq_uint false w es (toUns w b)).map (fun r => decide (0 ≤ b) && r)

/-- `bui::operator!=(INT_T)` for a signed operand: unlike the four
relational operators it casts first —
`auto bu = static_cast<std::make_unsigned_t<INT_T>>(b);
 return (b < 0) | operator_neq_uint(bu);` — so `operator_neq_uint` is
instantiated at the unsigned type and its assert passes. -/
def operator_neq (w : Nat) (es : List Nat) (b : Int) : Option Bool :=
  (operator_neq_uint true w es (toUns w b)).map (fun r => decide (b < 0) || r)

/-- `bui::operator==(INT_T)` for a signed operand: casts first, like
`operator!=`: `return (b >= 0) & operator_eq_uint(bu);`. -/
def operator_eq (w : Nat) (es : List Nat) (b : Int) : Option Bool :=
  (operator_eq_uint true w es (toUns w b)).map (fun r => decide (0 ≤ b) && r)

/-- `__builtin_clz` (via `wrapped_builtin_clz`) for a `w`-bit unsigned
value: the count of leading zero bits, `w` minus the binary length of `x`.
The builtin's result is unspecified for `x = 0`; every caller in `bifsi.h`
guards that case. -/
def clzNat (w x : Nat) : Nat := w - x.size

/-- The namespace-scope helper `bitlen(x)` of `bifsi.h`:
`(x == 0) ? sizeof(INT_T)*8 : sizeof(INT_T)*8 - wrapped_builtin_clz(x)`. -/
def bitlenNat (w x : Nat) : Nat := if x = 0 then w else w - clzNat w x

/-- The most-significant-first scan of `bui::bitlen()`:
`for i = n-1 down to 0 { if (el[i] != 0) return i*EL_SIZE_IN_BITS +
bitlen(el[i]); } return 0;` — on the reversed limb list the head has limb
index `rest.length`.  As written in the source the inner call
`bitlen(el[i])` does not compile (the 0-ary member `bui::bitlen` shadows
the namespace-scope helper and then fails overload resolution); this
definition resolves the call to the namespace-scope helper, the evident
intent. -/
def bitlenScan : List Nat → Nat
  | [] => 0
  | e :: rest =>
    if e ≠ 0 then elBits * rest.length + bitlenNat elBits e
    else bitlenScan rest

/-- Intended `bui::bitlen()`: scan the limbs most-significant first. -/
def bui_bitlen (es : List Nat) : Nat := bitlenScan es.reverse

/-- The loop guard `tmp != 0` of `uint_to_string`: `operator!=(int 0)` with
the nonnegative literal `0` reduces to
`(to_el_t() != 0) | is_nonzero_starting_at_el<1>()` — "some limb nonzero". -/
def neqZeroGuard (es : List Nat) : Bool :=
  decide (es.headD 0 ≠ 0) || is_nonzero_from 1 es

/-- The do-while loop of `uint_to_string` on a `bui` working copy:
`result[i] = '0' + (char)(tmp % 10); tmp /= 10; i++;` repeated
`while (tmp != 0)`, producing the digit characters least-significant first.
`tmp % 10` is `bui::operator%` and `tmp /= 10` is `bui::operator/=`.  The
conjunct `toVal … < toVal es` in the recursion guard is the termination
measure; for limb lists satisfying the `< 2^32` invariant it is implied by
the `tmp != 0` guard (`strLoop_eq_small` / `strLoop_eq_big` below recover
the source loop's equations), so on such lists this is the source loop. -/
def strLoop (es : List Nat) : List Char :=
  if h : neqZeroGuard (operator_diveq es 10).1 = true ∧
      toVal (operator_diveq es 10).1 < toVal es then
    Char.ofNat (48 + operator_mod es 10) :: strLoop (operator_diveq es 10).1
  else
    [Char.ofNat (48 + operator_mod es 10)]
termination_by toVal es
decreasing_by exact h.2

/-- `uint_to_string<bui<N>>`: collect the digit characters LSB-first,
terminate the buffer (immaterial for the value), `std::reverse`, and build
the `std::string`. -/
def uint_to_string (es : List Nat) : String := String.mk (strLoop es).reverse

/-- `bui::str()`: `uint_to_string(*this)`. -/
def bui_str (es : List Nat) : String := uint_to_string es

/-- `bui::set_from_str(str)` for an `n`-limb magnitude: `set_zero()`, then
for each character left to right `assert(c >= '0'); assert(c <= '9');
*this *= 10; *this += (el_t)(c - '0');`.  `*this *= 10` takes the
limb-width multiply path (`operator_muleq_uint` with `UINT_T` of limb
width); the asserts are modelled as `Option` failure. -/
def set_from_str (n : Nat) (s : String) : Option (List Nat) :=
  s.data.foldlM
    (fun es c =>
      if 48 ≤ c.toNat ∧ c.toNat ≤ 57 then
        some (operator_pluseq_uint 1 (operator_muleq_uint_el es 10)
          (c.toNat - 48))
      else none)
    (List.replicate n 0)

/-- Value of an LSB-first digit-character list: `Σ (c_i - '0') * 10^i`. -/
def digitsVal : List Char → Nat
  | [] => 0
  | c :: cs => (c.toNat - 48) + 10 * digitsVal cs

/-- `ceil_constexpr(double d)` of `bifsi.h`: `(int32_t) d` truncates toward
zero (floor for nonnegative `d`, ceiling for negative), then
`(double(i) == d) ? i : i + ((d > 0.0) ? 1 : 0)`.  The `double` arithmetic
is modelled on exact rationals. -/
def ceil_constexpr (d : ℚ) : Int :=
  let i : Int := if 0 ≤ d then ⌊d⌋ else ⌈d⌉
  if (i : ℚ) = d then i else i + (if 0 < d then 1 else 0)

end Bifsi

namespace Bifsi

/-- `(e + M * x) % (M * K) = e + M * (x % K)` when `e < M`: peeling the lowest
base-`M` digit out of a modulus. -/
theorem add_mul_mod_mul {M : Nat} (hM : 0 < M) (e x K : Nat) (he : e < M) :
    (e + M * x) % (M * K) = e + M * (x % K) := by
  rcases Nat.eq_zero_or_pos K with hK | hK
  · subst hK; simp [Nat.mod_zero]
  · obtain ⟨K2, rfl⟩ : ∃ K2, K = K2 + 1 := ⟨K - 1, by omega⟩
    have hx : x = (K2 + 1) * (x / (K2 + 1)) + x % (K2 + 1) :=
      (Nat.div_add_mod x (K2 + 1)).symm
    calc (e + M * x) % (M * (K2 + 1))
        = (e + M * (x % (K2 + 1)) + (M * (K2 + 1)) * (x / (K2 + 1))) %
            (M * (K2 + 1)) := by
          conv_lhs => rw [hx]
          ring_nf
      _ = (e + M * (x % (K2 + 1))) % (M * (K2 + 1)) := Nat.add_mul_mod_self_left ..
      _ = e + M * (x % (K2 + 1)) := by
          apply Nat.mod_eq_of_lt
          have h1 : x % (K2 + 1) ≤ K2 := by
            have := Nat.mod_lt x (show 0 < K2 + 1 by omega)
            omega
          have h2 : M * (x % (K2 + 1)) ≤ M * K2 := Nat.mul_le_mul_left _ h1
          have h3 : M * (K2 + 1) = M * K2 + M := by ring
          omega

/-- Restatement of `add_mul_mod_mul` in the shape of `toVal` of a cons cell. -/
theorem toVal_mod_cons (e : Nat) (he : e < elM) (x L : Nat) :
    e + elM * (x % elM ^ L) = (e + elM * x) % elM ^ (L + 1) := by
  rw [pow_succ']
  exact (add_mul_mod_mul (by decide) e x _ he).symm

/-- The wrapped sum plus `2^32` times the carry flag of
`el += c; carry = (el < c)` recovers the exact sum, and the flag is a bit
(hypotheses: `e` is a limb and the incoming carry is a bit). -/
theorem carry_step (e c : Nat) (he : e < elM) (hc : c ≤ 1) :
    (e + c) % elM + elM * (if (e + c) % elM < c then 1 else 0) = e + c ∧
      (if (e + c) % elM < c then 1 else 0) ≤ 1 := by
  rcases Nat.lt_or_ge (e + c) elM with h | h
  · rw [Nat.mod_eq_of_lt h]
    have hnot : ¬ e + c < c := by omega
    simp [hnot]
  · have hec : e + c = elM := by
      have : elM = 2 ^ 32 := rfl
      omega
    have hc1 : c = 1 := by
      have : elM = 2 ^ 32 := rfl
      omega
    rw [hec, Nat.mod_self, hc1]
    norm_num

/-- The wrapped sum plus `2^32` times the carry flag of
`el += b; carry = (el < b)` recovers the exact sum, for limb-sized operands. -/
theorem carry_step_full (a b : Nat) (ha : a < elM) (hb : b < elM) :
    (a + b) % elM + elM * (if (a + b) % elM < b then 1 else 0) = a + b ∧
      (if (a + b) % elM < b then 1 else 0) ≤ 1 := by
  rcases Nat.lt_or_ge (a + b) elM with h | h
  · rw [Nat.mod_eq_of_lt h]
    have hnot : ¬ a + b < b := by omega
    simp [hnot]
  · have hmod : (a + b) % elM = a + b - elM := by
      rw [Nat.mod_eq_sub_mod h]
      exact Nat.mod_eq_of_lt (by omega)
    rw [hmod]
    have hlt : a + b - elM < b := by omega
    rw [if_pos hlt]
    exact ⟨by omega, le_refl 1⟩

/-- Bit-valued `Nat.lor` is addition when the two bits are not both set. -/
theorem lor_bits (a b : Nat) (ha : a ≤ 1) (hb : b ≤ 1) (hab : a = 1 → b = 0) :
    a ||| b = a + b ∧ a ||| b ≤ 1 := by
  interval_cases a <;> interval_cases b <;> simp_all

/-- `carryLoop` implements `(value + carry) mod 2^N` on canonical limb lists. -/
theorem carryLoop_val (es : List Nat) (c : Nat) (hes : ∀ e ∈ es, e < elM)
    (hc : c ≤ 1) :
    toVal (carryLoop es c) = (toVal es + c) % elM ^ es.length := by
  induction es generalizing c with
  | nil => simp [carryLoop, toVal, Nat.mod_one]
  | cons e es ih =>
    have he : e < elM := hes e (by simp)
    have hes' : ∀ x ∈ es, x < elM := fun x hx => hes x (by simp [hx])
    obtain ⟨hsum, hbit⟩ := carry_step e c he hc
    have hlt : (e + c) % elM < elM := Nat.mod_lt _ (by decide)
    simp only [carryLoop, toVal, List.length_cons]
    rw [ih _ hes' hbit, toVal_mod_cons _ hlt]
    congr 1
    have hexp : (e + c) % elM + elM * (toVal es + (if (e + c) % elM < c then 1 else 0)) =
        ((e + c) % elM + elM * (if (e + c) % elM < c then 1 else 0)) + elM * toVal es := by
      ring
    rw [hexp, hsum]
    ring

/-- `addLoop` adds `carry + (b mod 2^(32*k))` into the represented value,
modulo `2^N`. -/
theorem addLoop_val (es : List Nat) (k b c : Nat) (hes : ∀ e ∈ es, e < elM)
    (hc : c ≤ 1) :
    toVal (addLoop k es b c) = (toVal es + c + b % elM ^ k) % elM ^ es.length := by
  induction es generalizing k b c with
  | nil =>
    cases k with
    | zero => simp [addLoop, carryLoop, toVal, Nat.mod_one]
    | succ k => simp [addLoop, toVal, Nat.mod_one]
  | cons e es ih =>
    cases k with
    | zero =>
      simp only [addLoop, pow_zero, Nat.mod_one, Nat.add_zero]
      exact carryLoop_val (e :: es) c hes hc
    | succ k =>
      have he : e < elM := hes e (by simp)
      have hes' : ∀ x ∈ es, x < elM := fun x hx => hes x (by simp [hx])
      obtain ⟨hsum1, hbit1⟩ := carry_step e c he hc
      have hbiM : b % elM < elM := Nat.mod_lt _ (by decide)
      have he1M : (e + c) % elM < elM := Nat.mod_lt _ (by decide)
      obtain ⟨hsum2, hbit2⟩ := carry_step_full ((e + c) % elM) (b % elM) he1M hbiM
      have hexcl : (if (e + c) % elM < c then 1 else 0) = 1 →
          (if ((e + c) % elM + b % elM) % elM < b % elM then 1 else 0) = 0 := by
        intro h1
        have he1z : (e + c) % elM = 0 := by
          by_cases h : (e + c) % elM < c
          · omega
          · simp [h] at h1
        rw [he1z, Nat.zero_add, Nat.mod_eq_of_lt hbiM]
        simp
      obtain ⟨hlor, hlorle⟩ := lor_bits _ _ hbit1 hbit2 hexcl
      have he2M : ((e + c) % elM + b % elM) % elM < elM := Nat.mod_lt _ (by decide)
      simp only [addLoop, toVal, List.length_cons]
      rw [ih _ _ _ hes' hlorle, toVal_mod_cons _ he2M]
      rw [pow_succ' elM k, Nat.mod_mul]
      congr 1
      rw [hlor]
      have hkey : ((e + c) % elM + b % elM) % elM +
          elM * ((if (e + c) % elM < c then 1 else 0) +
            (if ((e + c) % elM + b % elM) % elM < b % elM then 1 else 0)) =
          e + c + b % elM := by
        have hx : ((e + c) % elM + b % elM) % elM +
            elM * ((if (e + c) % elM < c then 1 else 0) +
              (if ((e + c) % elM + b % elM) % elM < b % elM then 1 else 0)) =
            (((e + c) % elM + b % elM) % elM +
              elM * (if ((e + c) % elM + b % elM) % elM < b % elM then 1 else 0)) +
              elM * (if (e + c) % elM < c then 1 else 0) := by ring
        rw [hx, hsum2]
        have hy : (e + c) % elM + b % elM + elM * (if (e + c) % elM < c then 1 else 0) =
            ((e + c) % elM + elM * (if (e + c) % elM < c then 1 else 0)) + b % elM := by
          ring
        rw [hy, hsum1]
      calc ((e + c) % elM + b % elM) % elM +
          elM * (toVal es +
            ((if (e + c) % elM < c then 1 else 0) +
              (if ((e + c) % elM + b % elM) % elM < b % elM then 1 else 0)) +
            b / elM % elM ^ k) =
          (((e + c) % elM + b % elM) % elM +
            elM * ((if (e + c) % elM < c then 1 else 0) +
              (if ((e + c) % elM + b % elM) % elM < b % elM then 1 else 0))) +
            elM * toVal es + elM * (b / elM % elM ^ k) := by ring
        _ = (e + c + b % elM) + elM * toVal es + elM * (b / elM % elM ^ k) := by
            rw [hkey]
        _ = e + elM * toVal es + c + (b % elM + elM * (b / elM % elM ^ k)) := by ring

/-- On canonical limbs, adding carry `0` leaves `carryLoop` inert. -/
theorem carryLoop_zero (es : List Nat) (hes : ∀ e ∈ es, e < elM) :
    carryLoop es 0 = es := by
  induction es with
  | nil => rfl
  | cons e es ih =>
    have he : e < elM := hes e (by simp)
    have hes' : ∀ x ∈ es, x < elM := fun x hx => hes x (by simp [hx])
    simp only [carryLoop, Nat.add_zero, Nat.mod_eq_of_lt he, Nat.not_lt_zero,
      if_false, ih hes']

/-- On canonical limbs, adding `0` with carry `0` leaves `addLoop` inert. -/
theorem addLoop_zero (k : Nat) (es : List Nat) (hes : ∀ e ∈ es, e < elM) :
    addLoop k es 0 0 = es := by
  induction es generalizing k with
  | nil => cases k <;> rfl
  | cons e es ih =>
    cases k with
    | zero => exact carryLoop_zero _ hes
    | succ k =>
      have he : e < elM := hes e (by simp)
      have hes' : ∀ x ∈ es, x < elM := fun x hx => hes x (by simp [hx])
      simp only [addLoop, Nat.add_zero, Nat.zero_mod, Nat.zero_div,
        Nat.mod_eq_of_lt he, Nat.not_lt_zero, if_false, Nat.zero_or, ih k hes']

/-- On canonical limbs, subtracting borrow `0` leaves `borrowLoop` inert. -/
theorem borrowLoop_zero (es : List Nat) (hes : ∀ e ∈ es, e < elM) :
    borrowLoop es 0 = es := by
  induction es with
  | nil => rfl
  | cons e es ih =>
    have he : e < elM := hes e (by simp)
    have hes' : ∀ x ∈ es, x < elM := fun x hx => hes x (by simp [hx])
    have hs : sub32 e 0 = e := by
      rw [sub32, Nat.sub_zero, Nat.add_mod_right, Nat.mod_eq_of_lt he]
    simp only [borrowLoop, hs, lt_irrefl, if_false, ih hes']

/-- On canonical limbs, subtracting `0` with borrow `0` leaves `subLoop` inert. -/
theorem subLoop_zero (k : Nat) (es : List Nat) (hes : ∀ e ∈ es, e < elM) :
    subLoop k es 0 0 = es := by
  induction es generalizing k with
  | nil => cases k <;> rfl
  | cons e es ih =>
    cases k with
    | zero => exact borrowLoop_zero _ hes
    | succ k =>
      have he : e < elM := hes e (by simp)
      have hes' : ∀ x ∈ es, x < elM := fun x hx => hes x (by simp [hx])
      have hs : sub32 e 0 = e := by
        rw [sub32, Nat.sub_zero, Nat.add_mod_right, Nat.mod_eq_of_lt he]
      simp only [subLoop, Nat.zero_mod, Nat.zero_div, hs, lt_irrefl, if_false,
        Nat.zero_or, ih k hes']

/-- C1: for every magnitude value `v` and unsigned native operand `b` of
width `32 * opEls` bits (at most double the limb width in the library, but
proved for any width), `operator_pluseq_uint` leaves the magnitude holding
`(v + b) mod 2^N`: the first `min opEls n` limbs absorb the operand slices
with branchless carries, the remaining limbs propagate only the carry, and
overflow past the top limb wraps silently with no overflow signal.  The
second conjunct records that the code's carry test `result < addend`
coincides with the spec's `result < previous_value` for limb-sized values. -/
theorem pluseq_adds_mod (opEls : Nat) (es : List Nat) (b : Nat)
    (hes : ∀ e ∈ es, e < elM) (hb : b < elM ^ opEls) :
    toVal (operator_pluseq_uint opEls es b) =
      (toVal es + b) % 2 ^ (elBits * es.length) ∧
    ∀ a x : Nat, a < elM → x < elM →
      (((a + x) % elM < x) ↔ ((a + x) % elM < a)) := by
  constructor
  · rw [operator_pluseq_uint, addLoop_val es _ b 0 hes (by omega), Nat.add_zero,
      pow_mul]
    rcases le_or_lt opEls es.length with hk | hk
    · rw [min_eq_left hk, Nat.mod_eq_of_lt hb]
      rfl
    · rw [min_eq_right (le_of_lt hk), Nat.add_mod_mod]
      rfl
  · intro a x ha hx
    rcases Nat.lt_or_ge (a + x) elM with h | h
    · rw [Nat.mod_eq_of_lt h]
      omega
    · have hmod : (a + x) % elM = a + x - elM := by
        rw [Nat.mod_eq_sub_mod h]
        exact Nat.mod_eq_of_lt (by omega)
      rw [hmod]
      omega

/-- Closed instance of `pluseq_adds_mod`, discharging its hypotheses at a
concrete input. -/
theorem pluseq_adds_mod_witness :
    (∀ e ∈ [(5 : Nat), 7], e < elM) ∧ (4294967299 : Nat) < elM ^ 2 ∧
      (toVal (operator_pluseq_uint 2 [5, 7] 4294967299) =
        (toVal [5, 7] + 4294967299) % 2 ^ (elBits * ([(5 : Nat), 7]).length) ∧
      ∀ a x : Nat, a < elM → x < elM →
        (((a + x) % elM < x) ↔ ((a + x) % elM < a))) :=
  ⟨by decide, by decide,
    pluseq_adds_mod 2 [5, 7] 4294967299 (by decide) (by decide)⟩

/-- C7 (amended): for every signed `w`-bit operand `b` other than the most
negative value of its type, `a += (-b)` and `a -= b` produce identical limb
arrays: the negative-operand paths of `operator+=` / `operator-=` translate
to subtracting / adding the operand magnitude. -/
theorem pluseq_neg_eq_minuseq (w : Nat) (es : List Nat) (b : Int)
    (hes : ∀ e ∈ es, e < elM) (hb : b ≠ intMin w) :
    operator_pluseq w es (negWrap w b) = operator_minuseq w es b := by
  have hminneg : intMin w < 0 := by
    rw [intMin]
    have : (0 : Int) < 2 ^ (w - 1) := by positivity
    omega
  rcases lt_trichotomy b 0 with hneg | hz | hpos
  · rw [negWrap, if_neg hb, operator_pluseq, if_pos (by omega),
      operator_minuseq, if_neg (by omega)]
  · subst hz
    rw [negWrap, if_neg (by omega), neg_zero, operator_pluseq, operator_minuseq,
      if_pos le_rfl, if_pos le_rfl]
    have h0 : toUns w 0 = 0 := by simp [toUns]
    rw [h0, operator_pluseq_uint, operator_minuseq_uint,
      addLoop_zero _ _ hes, subLoop_zero _ _ hes]
  · rw [negWrap, if_neg (by omega), operator_pluseq, if_neg (by omega),
      operator_minuseq, if_pos (by omega), neg_neg]

/-- Closed instance of `pluseq_neg_eq_minuseq` at a concrete input. -/
theorem pluseq_neg_eq_minuseq_witness :
    (∀ e ∈ [(3 : Nat), 4], e < elM) ∧ ((-5 : Int) ≠ intMin 32) ∧
      operator_pluseq 32 [3, 4] (negWrap 32 (-5)) =
        operator_minuseq 32 [3, 4] (-5) :=
  ⟨by decide, by decide,
    pluseq_neg_eq_minuseq 32 [3, 4] (-5) (by decide) (by decide)⟩

/-- C7 counterexample: at the most negative 32-bit operand `b = -2^31` on a
64-bit magnitude holding `0`, `a += (-b)` subtracts `2^31` (yielding
`2^64 - 2^31`) while `a -= b` adds `2^31`, so the claimed identity fails. -/
theorem pluseq_neg_ne_minuseq_at_intMin :
    operator_pluseq 32 [0, 0] (negWrap 32 (-(2 ^ 31))) ≠
      operator_minuseq 32 [0, 0] (-(2 ^ 31)) := by decide

/-- `toVal` over an append splits at the boundary. -/
theorem toVal_append (xs ys : List Nat) :
    toVal (xs ++ ys) = toVal xs + elM ^ xs.length * toVal ys := by
  induction xs with
  | nil => simp [toVal]
  | cons x xs ih =>
    simp only [List.cons_append]
    rw [show toVal (x :: (xs ++ ys)) = x + elM * toVal (xs ++ ys) from rfl,
      show toVal (x :: xs) = x + elM * toVal xs from rfl, ih, List.length_cons]
    ring

/-- `valMSF` scales linearly in its accumulator. -/
theorem valMSF_acc (es : List Nat) (a : Nat) :
    valMSF es a = a * elM ^ es.length + valMSF es 0 := by
  induction es generalizing a with
  | nil => simp [valMSF]
  | cons e es ih =>
    simp only [valMSF, List.length_cons, ih (a * elM + e), ih (0 * elM + e)]
    ring

/-- The MSF fold over a list is the little-endian value of its reverse. -/
theorem valMSF_zero_eq (es : List Nat) : valMSF es 0 = toVal es.reverse := by
  induction es with
  | nil => rfl
  | cons e es ih =>
    simp only [valMSF, List.reverse_cons, toVal_append, Nat.zero_mul,
      Nat.zero_add, List.length_reverse]
    rw [valMSF_acc es e, ih]
    simp [toVal]
    ring

/-- `tw <<= 32; tw |= el;` on a remainder register `r < 2^32` neither wraps
nor overlaps: it equals `r * 2^32 + el`. -/
theorem reg_shift_or (r e : Nat) (hr : r < elM) (he : e < elM) :
    ((r <<< elBits) % twM) ||| e = r * elM + e := by
  have h1 : r <<< elBits = r * elM := Nat.shiftLeft_eq r elBits
  have h2 : r * elM < twM := by
    have h3 : r * elM < elM * elM :=
      mul_lt_mul_of_pos_right hr (by decide)
    have h4 : elM * elM = twM := by decide
    omega
  rw [h1, Nat.mod_eq_of_lt h2, mul_comm r elM]
  exact (Nat.mul_add_lt_is_or (show e < 2 ^ elBits from he) r).symm

/-- Reducing the accumulator modulo `b` does not change `valMSF` modulo `b`. -/
theorem valMSF_mod (es : List Nat) (x b : Nat) :
    valMSF es x % b = valMSF es (x % b) % b := by
  rw [valMSF_acc es x, valMSF_acc es (x % b)]
  conv_lhs => rw [← Nat.div_add_mod x b]
  have hexp : (b * (x / b) + x % b) * elM ^ es.length + valMSF es 0 =
      (x % b * elM ^ es.length + valMSF es 0) + b * (x / b * elM ^ es.length) := by
    ring
  rw [hexp, Nat.add_mul_mod_self_left]

/-- Splitting the accumulator by `b` splits `valMSF`'s quotient by `b`. -/
theorem valMSF_div (es : List Nat) (x b : Nat) (hb : 0 < b) :
    valMSF es x / b = x / b * elM ^ es.length + valMSF es (x % b) / b := by
  rw [valMSF_acc es x, valMSF_acc es (x % b)]
  conv_lhs => rw [← Nat.div_add_mod x b]
  have hexp : (b * (x / b) + x % b) * elM ^ es.length + valMSF es 0 =
      b * (x / b * elM ^ es.length) + (x % b * elM ^ es.length + valMSF es 0) := by
    ring
  rw [hexp, Nat.mul_add_div hb]

/-- Long-division invariant of `divLoop`: starting from a reduced remainder
register, the scan returns `value % b` in the register and writes the limbs
of `value / b` (MSF), the quotient having one limb per input limb. -/
theorem divLoop_spec (b : Nat) (hb0 : 0 < b) (hbM : b < elM) :
    ∀ (es : List Nat) (r : Nat), r < b → (∀ e ∈ es, e < elM) →
      (divLoop b es r).2 = valMSF es r % b ∧
      valMSF (divLoop b es r).1 0 = valMSF es r / b ∧
      (divLoop b es r).1.length = es.length := by
  intro es
  induction es with
  | nil =>
    intro r hr _
    refine ⟨?_, ?_, rfl⟩
    · simp [divLoop, valMSF, Nat.mod_eq_of_lt hr]
    · simp [divLoop, valMSF, Nat.div_eq_of_lt hr]
  | cons e es ih =>
    intro r hr hes
    have he : e < elM := hes e (by simp)
    have hes' : ∀ x ∈ es, x < elM := fun x hx => hes x (by simp [hx])
    have hrM : r < elM := lt_trans hr hbM
    have ht : ((r <<< elBits) % twM) ||| e = r * elM + e := reg_shift_or r e hrM he
    have htb : r * elM + e < b * elM := by
      have h1 : (r + 1) * elM ≤ b * elM := Nat.mul_le_mul_right elM hr
      have h2 : (r + 1) * elM = r * elM + elM := by ring
      omega
    have hq : (r * elM + e) / b % elM = (r * elM + e) / b := by
      apply Nat.mod_eq_of_lt
      exact Nat.div_lt_of_lt_mul htb
    have hrb : (r * elM + e) % b < b := Nat.mod_lt _ hb0
    obtain ⟨ih1, ih2, ih3⟩ := ih ((r * elM + e) % b) hrb hes'
    refine ⟨?_, ?_, ?_⟩
    · show (divLoop b es (((((r <<< elBits) % twM) ||| e)) % b)).2 = _
      rw [ht, ih1]
      show _ = valMSF es (r * elM + e) % b
      exact (valMSF_mod es (r * elM + e) b).symm
    · show valMSF ((((r <<< elBits) % twM) ||| e) / b % elM ::
          (divLoop b es ((((r <<< elBits) % twM) ||| e) % b)).1) 0 = _
      rw [ht, hq]
      show valMSF (divLoop b es ((r * elM + e) % b)).1
          (0 * elM + (r * elM + e) / b) = valMSF es (r * elM + e) / b
      rw [Nat.zero_mul, Nat.zero_add, valMSF_acc _ ((r * elM + e) / b), ih2, ih3,
        valMSF_div es (r * elM + e) b hb0]
    · show ((((r <<< elBits) % twM) ||| e) / b % elM ::
          (divLoop b es ((((r <<< elBits) % twM) ||| e) % b)).1).length = _
      simp [ht, ih3]

/-- Specification of `operator_diveq` on canonical limbs: the limbs become
`floor(v / b)` and the returned remainder is `v mod b`. -/
theorem operator_diveq_spec (es : List Nat) (b : Nat) (hes : ∀ e ∈ es, e < elM)
    (hb0 : 0 < b) (hbM : b < elM) :
    toVal (operator_diveq es b).1 = toVal es / b ∧
      (operator_diveq es b).2 = toVal es % b := by
  have hrev : ∀ x ∈ es.reverse, x < elM := fun x hx =>
    hes x (List.mem_reverse.mp hx)
  obtain ⟨h1, h2, _⟩ := divLoop_spec b hb0 hbM es.reverse 0 hb0 hrev
  constructor
  · show toVal (divLoop b es.reverse 0).1.reverse = _
    rw [← valMSF_zero_eq, h2, valMSF_zero_eq, List.reverse_reverse]
  · show (divLoop b es.reverse 0).2 % elM = _
    rw [h1, valMSF_zero_eq, List.reverse_reverse]
    exact Nat.mod_eq_of_lt (lt_trans (Nat.mod_lt _ hb0) hbM)

/-- `modLoop` computes the remainder of the MSF value. -/
theorem modLoop_spec (b : Nat) (hb0 : 0 < b) (hbM : b < elM) :
    ∀ (es : List Nat) (r : Nat), r < b → (∀ e ∈ es, e < elM) →
      modLoop b es r = valMSF es r % b := by
  intro es
  induction es with
  | nil =>
    intro r hr _
    simp [modLoop, valMSF, Nat.mod_eq_of_lt hr]
  | cons e es ih =>
    intro r hr hes
    have he : e < elM := hes e (by simp)
    have hes' : ∀ x ∈ es, x < elM := fun x hx => hes x (by simp [hx])
    have hrM : r < elM := lt_trans hr hbM
    have ht : ((r <<< elBits) % twM) ||| e = r * elM + e := reg_shift_or r e hrM he
    show modLoop b es ((((r <<< elBits) % twM) ||| e) % b) = _
    rw [ht, ih _ (Nat.mod_lt _ hb0) hes']
    show _ = valMSF es (r * elM + e) % b
    exact (valMSF_mod es (r * elM + e) b).symm

/-- C2: for every magnitude value `v` and nonzero limb-width operand `b`,
`operator/=` performs MSF long division with the double-limb remainder
register, leaving the magnitude holding `floor(v / b)` and returning
`v mod b`. -/
theorem diveq_divides (es : List Nat) (b : Nat) (hes : ∀ e ∈ es, e < elM)
    (hb0 : 0 < b) (hbM : b < elM) :
    toVal (operator_diveq es b).1 = toVal es / b ∧
      (operator_diveq es b).2 = toVal es % b :=
  operator_diveq_spec es b hes hb0 hbM

/-- Closed instance of `diveq_divides` at a concrete input. -/
theorem diveq_divides_witness :
    (∀ e ∈ [(7 : Nat), 3], e < elM) ∧ (0 : Nat) < 5 ∧ (5 : Nat) < elM ∧
      (toVal (operator_diveq [7, 3] 5).1 = toVal [7, 3] / 5 ∧
        (operator_diveq [7, 3] 5).2 = toVal [7, 3] % 5) :=
  ⟨by decide, by decide, by decide,
    diveq_divides [7, 3] 5 (by decide) (by decide) (by decide)⟩

/-- `operator%` computes `v mod b` on canonical limbs. -/
theorem operator_mod_spec (es : List Nat) (b : Nat)
    (hes : ∀ e ∈ es, e < elM) (hb0 : 0 < b) (hbM : b < elM) :
    operator_mod es b = toVal es % b := by
  have hrev : ∀ x ∈ es.reverse, x < elM := fun x hx =>
    hes x (List.mem_reverse.mp hx)
  show modLoop b es.reverse 0 % elM = _
  rw [modLoop_spec b hb0 hbM es.reverse 0 hb0 hrev, valMSF_zero_eq,
    List.reverse_reverse]
  exact Nat.mod_eq_of_lt (lt_trans (Nat.mod_lt _ hb0) hbM)

/-- C8: for every magnitude value `v` and nonzero limb-width operand `b`,
`operator%` returns `v mod b`, and it agrees with the remainder produced by
the division scan of `operator/=` while writing no quotient limbs — the
method is `const`, so the limbs of the magnitude are left unchanged by
construction (the embedding is a pure function of the limbs). -/
theorem mod_returns_remainder (es : List Nat) (b : Nat)
    (hes : ∀ e ∈ es, e < elM) (hb0 : 0 < b) (hbM : b < elM) :
    operator_mod es b = toVal es % b ∧
      operator_mod es b = (operator_diveq es b).2 := by
  have h1 := operator_mod_spec es b hes hb0 hbM
  exact ⟨h1, by rw [h1, (operator_diveq_spec es b hes hb0 hbM).2]⟩

/-- Closed instance of `mod_returns_remainder` at a concrete input. -/
theorem mod_returns_remainder_witness :
    (∀ e ∈ [(9 : Nat), 4], e < elM) ∧ (0 : Nat) < 7 ∧ (7 : Nat) < elM ∧
      (operator_mod [9, 4] 7 = toVal [9, 4] % 7 ∧
        operator_mod [9, 4] 7 = (operator_diveq [9, 4] 7).2) :=
  ⟨by decide, by decide, by decide,
    mod_returns_remainder [9, 4] 7 (by decide) (by decide) (by decide)⟩


/-- C3 (refuted by evaluation): on a 64-bit magnitude holding `2`, the
double-limb multiply path with operand `2^32 + 2` leaves limbs representing
`4 + 4 * 2^32 = 17179869188` instead of
`(2 * (2^32 + 2)) mod 2^64 = 8589934596`: the high-half chain
`ui += b_upper * el[i]` reads the limb after it was overwritten with the
low-half product digit, so the result is not `(v * b) mod 2^N`. -/
theorem muleq_tw_wrong :
    toVal (operator_muleq_uint_tw [2, 0] (2 ^ 32 + 2)) = 17179869188 ∧
      (toVal [2, 0] * (2 ^ 32 + 2)) % 2 ^ (elBits * 2) = 8589934596 ∧
      toVal (operator_muleq_uint_tw [2, 0] (2 ^ 32 + 2)) ≠
        (toVal [2, 0] * (2 ^ 32 + 2)) % 2 ^ (elBits * 2) := by
  refine ⟨by decide, by decide, by decide⟩

/-- `loshift_1el` keeps limbs canonical. -/
theorem loshift_1el_canon (es : List Nat) (hes : ∀ e ∈ es, e < elM) :
    ∀ x ∈ loshift_1el es, x < elM := by
  cases es with
  | nil => intro x hx; cases hx
  | cons e es =>
    intro x hx
    rcases List.mem_append.mp hx with h | h
    · exact hes x (by simp [h])
    · rcases List.mem_singleton.mp h with rfl
      decide

/-- `loshift_1el` divides the value by the base `2^32`. -/
theorem loshift_1el_val (es : List Nat) (hes : ∀ e ∈ es, e < elM) :
    toVal (loshift_1el es) = toVal es / elM := by
  cases es with
  | nil => simp [loshift_1el, toVal]
  | cons e es =>
    have he : e < elM := hes e (by simp)
    show toVal (es ++ [0]) = toVal (e :: es) / elM
    rw [toVal_append, show toVal [0] = 0 from rfl, Nat.mul_zero, Nat.add_zero,
      show toVal (e :: es) = e + elM * toVal es from rfl,
      Nat.add_mul_div_left _ _ (show 0 < elM by decide),
      Nat.div_eq_of_lt he, Nat.zero_add]

/-- Iterating `loshift_1el` divides the value by `(2^32)^c` and keeps limbs
canonical. -/
theorem loshift_1el_iter (c : Nat) (es : List Nat) (hes : ∀ e ∈ es, e < elM) :
    toVal (loshift_1el^[c] es) = toVal es / elM ^ c ∧
      ∀ x ∈ loshift_1el^[c] es, x < elM := by
  induction c generalizing es with
  | zero => simpa using hes
  | succ c ih =>
    rw [Function.iterate_succ_apply]
    obtain ⟨h1, h2⟩ := ih (loshift_1el es) (loshift_1el_canon es hes)
    refine ⟨?_, h2⟩
    rw [h1, loshift_1el_val es hes, Nat.div_div_eq_div_mul, pow_succ']

/-- One digit of the logical right shift: dividing `e + 2^32 * T` by `2^W`
leaves `e >> W` plus the `W` low bits of `T` shifted up, plus `2^32` times
`T >> W`. -/
theorem shift_digit (W : Nat) (hW : W ≤ elBits) (e T : Nat) :
    (e + elM * T) / 2 ^ W =
      (e / 2 ^ W + T % 2 ^ W * 2 ^ (elBits - W)) + elM * (T / 2 ^ W) := by
  have hsplit : elM = 2 ^ W * 2 ^ (elBits - W) := by
    rw [← pow_add]
    show 2 ^ elBits = _
    congr 1
    omega
  have hexp : e + elM * T = e + 2 ^ W * (2 ^ (elBits - W) * T) := by
    rw [hsplit]; ring
  rw [hexp, Nat.add_mul_div_left _ _ (Nat.pos_pow_of_pos W (by omega))]
  have hT : 2 ^ (elBits - W) * T =
      T % 2 ^ W * 2 ^ (elBits - W) + elM * (T / 2 ^ W) := by
    conv_lhs => rw [← Nat.div_add_mod T (2 ^ W)]
    rw [hsplit]
    ring
  rw [hT]
  ring

/-- `loshift_bits` computes the logical right shift by `W < 32` bit
positions on canonical limbs. -/
theorem loshift_bits_val (W : Nat) (hW : W < elBits) :
    ∀ es : List Nat, (∀ e ∈ es, e < elM) →
      toVal (loshift_bits W es) = toVal es / 2 ^ W := by
  intro es
  induction es with
  | nil => intro _; simp [loshift_bits, toVal]
  | cons e es ih =>
    cases es with
    | nil =>
      intro hes
      show toVal [e >>> W] = toVal [e] / 2 ^ W
      rw [show toVal [e >>> W] = e >>> W + elM * 0 from rfl,
        show toVal [e] = e + elM * 0 from rfl,
        Nat.shiftRight_eq_div_pow, Nat.mul_zero, Nat.add_zero, Nat.add_zero]
    | cons e2 es2 =>
      intro hes
      have he : e < elM := hes e (by simp)
      have he2 : e2 < elM := hes e2 (by simp)
      have hes' : ∀ x ∈ e2 :: es2, x < elM := fun x hx => hes x (by simp at hx ⊢; tauto)
      have hr : (e >>> W) ||| ((e2 <<< (elBits - W)) % elM) =
          e / 2 ^ W + e2 % 2 ^ W * 2 ^ (elBits - W) := by
        have h1 : e2 <<< (elBits - W) = e2 * 2 ^ (elBits - W) :=
          Nat.shiftLeft_eq e2 (elBits - W)
        have hsplit : elM = 2 ^ (elBits - W) * 2 ^ W := by
          rw [← pow_add]
          show (2 : Nat) ^ elBits = _
          congr 1
          omega
        have h2 : (e2 * 2 ^ (elBits - W)) % elM = 2 ^ (elBits - W) * (e2 % 2 ^ W) := by
          rw [hsplit, mul_comm e2 (2 ^ (elBits - W)), Nat.mul_mod_mul_left]
        have h3 : e / 2 ^ W < 2 ^ (elBits - W) := by
          apply Nat.div_lt_of_lt_mul
          calc e < elM := he
            _ = 2 ^ W * 2 ^ (elBits - W) := by rw [mul_comm]; exact hsplit
        rw [h1, h2, Nat.shiftRight_eq_div_pow, Nat.lor_comm,
          ← Nat.mul_add_lt_is_or h3 (e2 % 2 ^ W), mul_comm]
        ring
      show ((e >>> W) ||| ((e2 <<< (elBits - W)) % elM)) +
          elM * toVal (loshift_bits W (e2 :: es2)) = toVal (e :: e2 :: es2) / 2 ^ W
      rw [hr, ih hes',
        show toVal (e :: e2 :: es2) = e + elM * toVal (e2 :: es2) from rfl,
        shift_digit W (le_of_lt hW) e (toVal (e2 :: es2))]
      have hmod : toVal (e2 :: es2) % 2 ^ W = e2 % 2 ^ W := by
        have hdvd : (2 : Nat) ^ W ∣ elM := pow_dvd_pow 2 (le_of_lt hW)
        show (e2 + elM * toVal es2) % 2 ^ W = _
        obtain ⟨d, hd⟩ := hdvd
        rw [hd, mul_assoc, Nat.add_mul_mod_self_left]
      rw [hmod]

/-- C6: a whole-limb low shift applied `c` times followed by a sub-limb low
shift by `s` (`0 < s < 32`) leaves the magnitude holding the logical right
shift `floor(v / 2^(c*32 + s))`. -/
theorem shift_composition (es : List Nat) (c s : Nat)
    (hes : ∀ e ∈ es, e < elM) (hs0 : 0 < s) (hsW : s < elBits) :
    toVal (loshift_bits s (loshift_1el^[c] es)) =
      toVal es / 2 ^ (c * elBits + s) := by
  obtain ⟨hv, hcanon⟩ := loshift_1el_iter c es hes
  rw [loshift_bits_val s hsW _ hcanon, hv, Nat.div_div_eq_div_mul]
  congr 1
  rw [pow_add, mul_comm c elBits, pow_mul]
  rfl

/-- Closed instance of `shift_composition` at a concrete input. -/
theorem shift_composition_witness :
    (∀ e ∈ [(11 : Nat), 7], e < elM) ∧ (0 : Nat) < 3 ∧ (3 : Nat) < elBits ∧
      toVal (loshift_bits 3 (loshift_1el^[1] [11, 7])) =
        toVal [11, 7] / 2 ^ (1 * elBits + 3) :=
  ⟨by decide, by decide, by decide,
    shift_composition [11, 7] 1 3 (by decide) (by decide) (by decide)⟩

/-- C4 (evaluated at the failing input): on a 32-bit magnitude holding `0`
compared against the signed operand `-1`, `operator==` and `operator!=`
(which cast the operand to unsigned before calling the `_uint` helper)
return the claimed `false` / `true`, but `operator>`, `operator<`,
`operator>=`, `operator<=` pass the raw signed type to their `_uint`
helpers, whose `assert(std::is_unsigned_v<UINT_T>)` fails — in an
assertion-enabled build the program aborts instead of returning the claimed
booleans. -/
theorem compare_negative_eval :
    operator_gt 32 [0] (-1) = none ∧
      operator_lt 32 [0] (-1) = none ∧
      operator_geq 32 [0] (-1) = none ∧
      operator_leq 32 [0] (-1) = none ∧
      operator_neq 32 [0] (-1) = some true ∧
      operator_eq 32 [0] (-1) = some false := by
  refine ⟨rfl, rfl, rfl, rfl, by decide, by decide⟩

/-- A canonical limb list of length `n` represents a value below `(2^32)^n`. -/
theorem toVal_lt (es : List Nat) (hes : ∀ e ∈ es, e < elM) :
    toVal es < elM ^ es.length := by
  induction es with
  | nil => simp [toVal]
  | cons e es ih =>
    have he := hes e (by simp)
    have ih2 := ih (fun x hx => hes x (by simp [hx]))
    show e + elM * toVal es < elM ^ (es.length + 1)
    obtain ⟨P1, hP⟩ : ∃ P1, elM ^ es.length = P1 + 1 :=
      ⟨elM ^ es.length - 1, by
        have := Nat.pos_pow_of_pos es.length (show 0 < elM by decide)
        omega⟩
    rw [pow_succ', hP]
    have h1 : toVal es ≤ P1 := by omega
    have h2 : elM * toVal es ≤ elM * P1 := Nat.mul_le_mul_left _ h1
    have h3 : elM * (P1 + 1) = elM * P1 + elM := by ring
    omega

/-- A canonical value is zero exactly when every limb is zero. -/
theorem toVal_eq_zero (es : List Nat) : toVal es = 0 ↔ ∀ e ∈ es, e = 0 := by
  induction es with
  | nil => simp [toVal]
  | cons e es ih =>
    show e + elM * toVal es = 0 ↔ _
    rw [List.forall_mem_cons, ← ih]
    constructor
    · intro h
      have he : e = 0 := by omega
      have hT : elM * toVal es = 0 := by omega
      refine ⟨he, ?_⟩
      rcases Nat.mul_eq_zero.mp hT with h2 | h2
      · exact absurd h2 (by decide)
      · exact h2
    · rintro ⟨h1, h2⟩
      rw [h1, h2]
      simp

/-- The helper `bitlen` computes `floor(log2 x) + 1` on nonzero in-range
values. -/
theorem bitlenNat_spec (w x : Nat) (hx : 0 < x) (hxw : x < 2 ^ w) :
    bitlenNat w x = Nat.log2 x + 1 := by
  have hsz : x.size ≤ w := Nat.size_le.mpr hxw
  have hszpos : 0 < x.size := Nat.size_pos.mpr hx
  have h1 : 2 ^ (x.size - 1) ≤ x := Nat.lt_size.mp (by omega)
  have h2 : x < 2 ^ x.size := Nat.lt_size_self x
  have hlog : Nat.log 2 x = x.size - 1 :=
    Nat.log_eq_of_pow_le_of_lt_pow h1 (by rwa [Nat.sub_add_cancel hszpos])
  rw [bitlenNat, if_neg (by omega), clzNat, Nat.log2_eq_log_two, hlog]
  omega

/-- The binary logarithm of `R + (2^32)^k * e` for `R < (2^32)^k` and
`e > 0` is `32*k + log2 e`. -/
theorem log2_add_mul_pow (k e R : Nat) (he : 0 < e) (hR : R < elM ^ k) :
    Nat.log2 (R + elM ^ k * e) = elBits * k + Nat.log2 e := by
  have h2 : (elM : Nat) ^ k = 2 ^ (elBits * k) := by
    rw [show elM = 2 ^ elBits from rfl, ← pow_mul]
  have hlo : 2 ^ (elBits * k + Nat.log2 e) ≤ R + elM ^ k * e := by
    have l1 : 2 ^ Nat.log2 e ≤ e := Nat.log2_self_le (by omega)
    calc 2 ^ (elBits * k + Nat.log2 e)
        = 2 ^ (elBits * k) * 2 ^ Nat.log2 e := pow_add 2 _ _
      _ ≤ 2 ^ (elBits * k) * e := Nat.mul_le_mul_left _ l1
      _ = elM ^ k * e := by rw [h2]
      _ ≤ R + elM ^ k * e := Nat.le_add_left _ _
  have hhi : R + elM ^ k * e < 2 ^ (elBits * k + Nat.log2 e + 1) := by
    have l2 : e < 2 ^ (Nat.log2 e + 1) := Nat.lt_log2_self
    calc R + elM ^ k * e < elM ^ k + elM ^ k * e := by omega
      _ = elM ^ k * (e + 1) := by ring
      _ ≤ elM ^ k * 2 ^ (Nat.log2 e + 1) := Nat.mul_le_mul_left _ (by omega)
      _ = 2 ^ (elBits * k) * 2 ^ (Nat.log2 e + 1) := by rw [h2]
      _ = 2 ^ (elBits * k + (Nat.log2 e + 1)) := (pow_add 2 _ _).symm
  rw [Nat.log2_eq_log_two]
  exact Nat.log_eq_of_pow_le_of_lt_pow hlo hhi

/-- `bitlenScan` over an MSF limb list computes `floor(log2 v) + 1` (or `0`
on the all-zero value). -/
theorem bitlenScan_spec (l : List Nat) (hl : ∀ e ∈ l, e < elM) :
    bitlenScan l =
      if toVal l.reverse = 0 then 0 else Nat.log2 (toVal l.reverse) + 1 := by
  induction l with
  | nil => simp [bitlenScan, toVal]
  | cons e rest ih =>
    have he := hl e (by simp)
    have hl2 : ∀ x ∈ rest, x < elM := fun x hx => hl x (by simp [hx])
    have hval : toVal (e :: rest).reverse =
        toVal rest.reverse + elM ^ rest.length * e := by
      rw [List.reverse_cons, toVal_append, List.length_reverse,
        show toVal [e] = e + elM * 0 from rfl]
      ring
    by_cases hez : e = 0
    · subst hez
      rw [bitlenScan, if_neg (by omega), ih hl2, hval]
      norm_num
    · have hepos : 0 < e := Nat.pos_of_ne_zero hez
      have hR : toVal rest.reverse < elM ^ rest.length := by
        have := toVal_lt rest.reverse
          (fun x hx => hl2 x (List.mem_reverse.mp hx))
        rwa [List.length_reverse] at this
      have hvpos : toVal rest.reverse + elM ^ rest.length * e ≠ 0 := by
        have hp : 0 < elM ^ rest.length :=
          Nat.pos_pow_of_pos _ (show 0 < elM by decide)
        have := Nat.mul_pos hp hepos
        omega
      rw [bitlenScan, if_pos hez, hval, if_neg hvpos,
        log2_add_mul_pow rest.length e _ hepos hR,
        bitlenNat_spec elBits e hepos (show e < 2 ^ elBits from he)]
      omega

/-- C9 (proved for the intended call resolution; the shipped
`bui::bitlen()` does not even compile, see the results entry): the helper
`bitlen(x)` returns `w` when `x = 0` and `w - clz(x) = floor(log2 x) + 1`
otherwise, and the magnitude-level scan returns `0` for the all-zero value
and `index_of_highest_nonzero_limb * 32 + bitlen(that limb)
= floor(log2 v) + 1` otherwise. -/
theorem bitlen_spec (w x : Nat) (es : List Nat) (hx : 0 < x)
    (hxw : x < 2 ^ w) (hes : ∀ e ∈ es, e < elM) :
    bitlenNat w 0 = w ∧
      (bitlenNat w x = w - clzNat w x ∧ bitlenNat w x = Nat.log2 x + 1) ∧
      bui_bitlen es =
        (if toVal es = 0 then 0 else Nat.log2 (toVal es) + 1) := by
  refine ⟨by simp [bitlenNat],
    ⟨by rw [bitlenNat, if_neg (by omega)], bitlenNat_spec w x hx hxw⟩, ?_⟩
  rw [bui_bitlen,
    bitlenScan_spec es.reverse (fun e he2 => hes e (List.mem_reverse.mp he2)),
    List.reverse_reverse]

/-- Closed instance of `bitlen_spec` at a concrete input. -/
theorem bitlen_spec_witness :
    (0 : Nat) < 5 ∧ (5 : Nat) < 2 ^ 32 ∧ (∀ e ∈ [(5 : Nat), 0], e < elM) ∧
      (bitlenNat 32 0 = 32 ∧
        (bitlenNat 32 5 = 32 - clzNat 32 5 ∧
          bitlenNat 32 5 = Nat.log2 5 + 1) ∧
        bui_bitlen [5, 0] =
          (if toVal [5, 0] = 0 then 0 else Nat.log2 (toVal [5, 0]) + 1)) :=
  ⟨by decide, by decide, by decide,
    bitlen_spec 32 5 [5, 0] (by decide) (by decide) (by decide)⟩

/-- `carryLoop` preserves the limb count. -/
theorem carryLoop_length (es : List Nat) (c : Nat) :
    (carryLoop es c).length = es.length := by
  induction es generalizing c with
  | nil => rfl
  | cons e es ih => simp [carryLoop, ih]

/-- `carryLoop` writes only reduced limbs. -/
theorem carryLoop_canon (es : List Nat) (c : Nat) :
    ∀ x ∈ carryLoop es c, x < elM := by
  induction es generalizing c with
  | nil => intro x hx; cases hx
  | cons e es ih =>
    intro x hx
    simp only [carryLoop] at hx
    rcases List.mem_cons.mp hx with rfl | hx2
    · exact Nat.mod_lt _ (by decide)
    · exact ih _ x hx2

/-- `addLoop` preserves the limb count. -/
theorem addLoop_length (es : List Nat) (k b c : Nat) :
    (addLoop k es b c).length = es.length := by
  induction es generalizing k b c with
  | nil => cases k <;> rfl
  | cons e es ih =>
    cases k with
    | zero => exact carryLoop_length _ _
    | succ k => simp [addLoop, ih]

/-- `addLoop` writes only reduced limbs. -/
theorem addLoop_canon (es : List Nat) (k b c : Nat) :
    ∀ x ∈ addLoop k es b c, x < elM := by
  induction es generalizing k b c with
  | nil => cases k <;> intro x hx <;> cases hx
  | cons e es ih =>
    cases k with
    | zero => exact carryLoop_canon _ _
    | succ k =>
      intro x hx
      simp only [addLoop] at hx
      rcases List.mem_cons.mp hx with rfl | hx2
      · exact Nat.mod_lt _ (by decide)
      · exact ih _ _ _ x hx2

/-- `mulElLoop` preserves the limb count. -/
theorem mulElLoop_length (es : List Nat) (b t : Nat) :
    (mulElLoop es b t).length = es.length := by
  induction es generalizing t with
  | nil => rfl
  | cons e es ih => simp [mulElLoop, ih]

/-- `mulElLoop` writes only reduced limbs. -/
theorem mulElLoop_canon (es : List Nat) (b t : Nat) :
    ∀ x ∈ mulElLoop es b t, x < elM := by
  induction es generalizing t with
  | nil => intro x hx; cases hx
  | cons e es ih =>
    intro x hx
    simp only [mulElLoop] at hx
    rcases List.mem_cons.mp hx with rfl | hx2
    · exact Nat.mod_lt _ (by decide)
    · exact ih _ x hx2

/-- The limb-width multiply accumulates `(t + v * b) mod 2^N`: the running
double-limb accumulator never wraps and its carry stays below one limb. -/
theorem mulElLoop_val (es : List Nat) (b : Nat) (hes : ∀ e ∈ es, e < elM)
    (hb : b < elM) :
    ∀ t : Nat, t < elM →
      toVal (mulElLoop es b t) = (t + toVal es * b) % elM ^ es.length := by
  induction es with
  | nil => intro t _; simp [mulElLoop, toVal, Nat.mod_one]
  | cons e es ih =>
    intro t ht
    have he : e < elM := hes e (by simp)
    have hes2 : ∀ x ∈ es, x < elM := fun x hx => hes x (by simp [hx])
    have hbig : t + e * b < twM := by
      have h1 : e * b ≤ (elM - 1) * (elM - 1) :=
        Nat.mul_le_mul (by omega) (by omega)
      have h2 : (elM - 1) * (elM - 1) + (elM - 1) < twM := by decide
      omega
    have ht1 : (t + e * b) % twM = t + e * b := Nat.mod_eq_of_lt hbig
    have hcarry : (t + e * b) / elM < elM := by
      apply Nat.div_lt_of_lt_mul
      have h3 : elM * elM = twM := by decide
      omega
    simp only [mulElLoop, toVal]
    rw [ht1, Nat.shiftRight_eq_div_pow,
      show (t + e * b) / 2 ^ elBits = (t + e * b) / elM from rfl,
      ih hes2 _ hcarry,
      toVal_mod_cons _ (Nat.mod_lt _ (show 0 < elM by decide)),
      List.length_cons]
    congr 1
    have hexp : (t + e * b) % elM + elM * ((t + e * b) / elM + toVal es * b) =
        ((t + e * b) % elM + elM * ((t + e * b) / elM)) + elM * (toVal es * b) := by
      ring
    rw [hexp, Nat.mod_add_div]
    ring

/-- `operator_pluseq_uint` with a one-limb operand adds it modulo `2^N`. -/
theorem pluseq1_val (es : List Nat) (d : Nat) (hes : ∀ e ∈ es, e < elM)
    (hd : d < elM) :
    toVal (operator_pluseq_uint 1 es d) = (toVal es + d) % elM ^ es.length := by
  cases es with
  | nil => simp [operator_pluseq_uint, addLoop, carryLoop, toVal, Nat.mod_one]
  | cons e es2 =>
    rw [operator_pluseq_uint,
      show min 1 (e :: es2).length = 1 from by rw [List.length_cons]; omega,
      addLoop_val (e :: es2) 1 d 0 hes (by omega), Nat.add_zero, pow_one,
      Nat.mod_eq_of_lt hd]

/-- The quotient limbs written by `divLoop` are reduced. -/
theorem divLoop_canon (b : Nat) :
    ∀ (es : List Nat) (r : Nat), ∀ x ∈ (divLoop b es r).1, x < elM := by
  intro es
  induction es with
  | nil => intro r x hx; simp [divLoop] at hx
  | cons e es ih =>
    intro r x hx
    simp only [divLoop] at hx
    rcases List.mem_cons.mp hx with rfl | hx2
    · exact Nat.mod_lt _ (by decide)
    · exact ih _ x hx2

/-- The quotient limbs of `operator_diveq` are reduced. -/
theorem operator_diveq_canon (es : List Nat) (b : Nat) :
    ∀ x ∈ (operator_diveq es b).1, x < elM := by
  intro x hx
  simp only [operator_diveq] at hx
  exact divLoop_canon b es.reverse 0 x (List.mem_reverse.mp hx)

/-- `divLoop` writes one quotient limb per input limb (unconditionally). -/
theorem divLoop_length (b : Nat) :
    ∀ (es : List Nat) (r : Nat), (divLoop b es r).1.length = es.length := by
  intro es
  induction es with
  | nil => intro r; rfl
  | cons e es ih => intro r; simp [divLoop, ih]

/-- `operator_diveq` preserves the limb count. -/
theorem operator_diveq_length (es : List Nat) (b : Nat) :
    (operator_diveq es b).1.length = es.length := by
  simp only [operator_diveq]
  rw [List.length_reverse, divLoop_length, List.length_reverse]

/-- The loop guard of `uint_to_string` is true exactly when some limb is
nonzero. -/
theorem neqZeroGuard_eq (es : List Nat) :
    neqZeroGuard es = true ↔ ¬ ∀ e ∈ es, e = 0 := by
  cases es with
  | nil => simp [neqZeroGuard, is_nonzero_from]
  | cons e es2 =>
    simp only [neqZeroGuard, is_nonzero_from, List.headD_cons, List.drop_one,
      List.tail_cons, Bool.or_eq_true, decide_eq_true_eq, List.any_eq_true,
      bne_iff_ne, List.forall_mem_cons]
    constructor
    · rintro (h | ⟨x, hx, hne⟩)
      · intro hcon; exact h hcon.1
      · intro hcon; exact hne (hcon.2 x hx)
    · intro h
      by_cases he : e = 0
      · right
        by_contra hall
        push_neg at hall
        exact h ⟨he, hall⟩
      · exact Or.inl he

/-- On canonical limbs with value below `10`, the rendering loop emits a
single digit and stops (`tmp != 0` fails after the first division). -/
theorem strLoop_eq_small (es : List Nat) (hes : ∀ e ∈ es, e < elM)
    (hv : toVal es < 10) :
    strLoop es = [Char.ofNat (48 + toVal es % 10)] := by
  have hq : toVal (operator_diveq es 10).1 = toVal es / 10 :=
    (operator_diveq_spec es 10 hes (by decide) (by decide)).1
  have hq0 : toVal (operator_diveq es 10).1 = 0 := by
    rw [hq]
    exact Nat.div_eq_of_lt hv
  have hguard : ¬ (neqZeroGuard (operator_diveq es 10).1 = true ∧
      toVal (operator_diveq es 10).1 < toVal es) := by
    rintro ⟨hg, _⟩
    exact (neqZeroGuard_eq _).mp hg ((toVal_eq_zero _).mp hq0)
  rw [strLoop, dif_neg hguard,
    operator_mod_spec es 10 hes (by decide) (by decide)]

/-- On canonical limbs with value at least `10`, the rendering loop emits
the lowest digit and recurses on the quotient. -/
theorem strLoop_eq_big (es : List Nat) (hes : ∀ e ∈ es, e < elM)
    (hv : 10 ≤ toVal es) :
    strLoop es =
      Char.ofNat (48 + toVal es % 10) :: strLoop (operator_diveq es 10).1 := by
  have hq : toVal (operator_diveq es 10).1 = toVal es / 10 :=
    (operator_diveq_spec es 10 hes (by decide) (by decide)).1
  have hqne : toVal (operator_diveq es 10).1 ≠ 0 := by
    rw [hq]
    have : 1 ≤ toVal es / 10 := (Nat.one_le_div_iff (by omega)).mpr hv
    omega
  have hguard : neqZeroGuard (operator_diveq es 10).1 = true ∧
      toVal (operator_diveq es 10).1 < toVal es := by
    constructor
    · exact (neqZeroGuard_eq _).mpr (fun hall => hqne ((toVal_eq_zero _).mpr hall))
    · rw [hq]
      exact Nat.div_lt_self (by omega) (by omega)
  rw [strLoop, dif_pos hguard,
    operator_mod_spec es 10 hes (by decide) (by decide)]

/-- Digit characters built by the loop have code points back in `'0'..'9'`. -/
theorem char_toNat_digit (d : Nat) (hd : d < 10) :
    (Char.ofNat (48 + d)).toNat = 48 + d := by
  have h : (48 + d).isValidChar := Or.inl (by omega)
  simp only [Char.ofNat, dif_pos h, Char.ofNatAux, Char.toNat]
  have hlt : 48 + d < UInt32.size := by
    show 48 + d < 4294967296
    omega
  simp [UInt32.ofNat', UInt32.toNat, Nat.mod_eq_of_lt hlt]

/-- The rendering loop emits the decimal digits of the value,
least-significant first, all with code points in `'0'..'9'`. -/
theorem strLoop_spec (v : Nat) : ∀ es : List Nat, toVal es = v →
    (∀ e ∈ es, e < elM) →
    digitsVal (strLoop es) = v ∧
      ∀ c ∈ strLoop es, 48 ≤ c.toNat ∧ c.toNat ≤ 57 := by
  induction v using Nat.strong_induction_on with
  | _ v ih =>
    intro es hval hes
    subst hval
    have hd10 : toVal es % 10 < 10 := Nat.mod_lt _ (by omega)
    have hchar := char_toNat_digit (toVal es % 10) hd10
    rcases Nat.lt_or_ge (toVal es) 10 with hv | hv
    · rw [strLoop_eq_small es hes hv]
      constructor
      · show (Char.ofNat (48 + toVal es % 10)).toNat - 48 + 10 * digitsVal [] =
          toVal es
        rw [hchar, show digitsVal [] = 0 from rfl, Nat.mod_eq_of_lt hv]
        omega
      · intro c hc
        rcases List.mem_singleton.mp hc with rfl
        rw [hchar]
        omega
    · have hq : toVal (operator_diveq es 10).1 = toVal es / 10 :=
        (operator_diveq_spec es 10 hes (by decide) (by decide)).1
      have hqcanon := operator_diveq_canon es 10
      have hdec : toVal es / 10 < toVal es := Nat.div_lt_self (by omega) (by omega)
      obtain ⟨ih1, ih2⟩ := ih (toVal es / 10) hdec (operator_diveq es 10).1 hq hqcanon
      rw [strLoop_eq_big es hes hv]
      constructor
      · show (Char.ofNat (48 + toVal es % 10)).toNat - 48 +
          10 * digitsVal (strLoop (operator_diveq es 10).1) = toVal es
        rw [hchar, ih1]
        omega
      · intro c hc
        rcases List.mem_cons.mp hc with rfl | hc2
        · rw [hchar]; omega
        · exact ih2 c hc2

/-- The rendering loop emits at most `d` digits on values below `10^d`. -/
theorem strLoop_length_le : ∀ (d : Nat) (es : List Nat), 0 < d →
    (∀ e ∈ es, e < elM) → toVal es < 10 ^ d → (strLoop es).length ≤ d := by
  intro d
  induction d with
  | zero => intro es h0 _ _; omega
  | succ d ihd =>
    intro es _ hes hv
    rcases Nat.lt_or_ge (toVal es) 10 with h10 | h10
    · rw [strLoop_eq_small es hes h10]
      simp
    · rw [strLoop_eq_big es hes h10]
      have hq := (operator_diveq_spec es 10 hes (by decide) (by decide)).1
      have hqc := operator_diveq_canon es 10
      have hqv : toVal (operator_diveq es 10).1 < 10 ^ d := by
        rw [hq]
        apply (Nat.div_lt_iff_lt_mul (by omega)).mpr
        rw [← pow_succ]
        exact hv
      have hd0 : 0 < d := by
        by_contra h
        have hdz : d = 0 := by omega
        subst hdz
        rw [pow_one] at hv
        omega
      have := ihd _ hd0 hqc hqv
      simp only [List.length_cons]
      omega

/-- Horner evaluation never decreases below its seed. -/
theorem horner_ge (cs : List Char) : ∀ a : Nat,
    a ≤ cs.foldl (fun x c => x * 10 + (c.toNat - 48)) a := by
  induction cs with
  | nil => intro a; simp
  | cons c cs ih =>
    intro a
    rw [List.foldl_cons]
    calc a ≤ a * 10 + (c.toNat - 48) := by omega
      _ ≤ _ := ih _

/-- Horner evaluation of the reversed digit list recovers `digitsVal`. -/
theorem horner_reverse (L : List Char) :
    L.reverse.foldl (fun x c => x * 10 + (c.toNat - 48)) 0 = digitsVal L := by
  induction L with
  | nil => rfl
  | cons c L ih =>
    rw [List.reverse_cons, List.foldl_append, ih,
      show digitsVal (c :: L) = (c.toNat - 48) + 10 * digitsVal L from rfl]
    simp [List.foldl_cons]
    ring

/-- On all-digit input the `Option`-valued parse fold never fails and
equals the pure fold. -/
theorem parse_fold_some : ∀ (cs : List Char) (es0 : List Nat),
    (∀ c ∈ cs, 48 ≤ c.toNat ∧ c.toNat ≤ 57) →
    cs.foldlM
      (fun es c =>
        if 48 ≤ c.toNat ∧ c.toNat ≤ 57 then
          some (operator_pluseq_uint 1 (operator_muleq_uint_el es 10)
            (c.toNat - 48))
        else none) es0 =
      some (cs.foldl
        (fun es c =>
          operator_pluseq_uint 1 (operator_muleq_uint_el es 10) (c.toNat - 48))
        es0) := by
  intro cs
  induction cs with
  | nil => intro es0 _; rfl
  | cons c cs ih =>
    intro es0 hcs
    have hc := hcs c (by simp)
    rw [List.foldlM_cons, if_pos hc, List.foldl_cons]
    show (some _ >>= _) = _
    rw [Option.bind_eq_bind, Option.some_bind]
    exact ih _ (fun x hx => hcs x (by simp [hx]))

/-- Invariant of the parse fold: while the pure Horner value stays below
`2^N`, the limb state tracks it exactly, staying canonical with a fixed
limb count. -/
theorem parse_foldl_val : ∀ (cs : List Char) (es0 : List Nat),
    (∀ e ∈ es0, e < elM) →
    (∀ c ∈ cs, 48 ≤ c.toNat ∧ c.toNat ≤ 57) →
    cs.foldl (fun a c => a * 10 + (c.toNat - 48)) (toVal es0) < elM ^ es0.length →
    toVal (cs.foldl (fun es c =>
        operator_pluseq_uint 1 (operator_muleq_uint_el es 10) (c.toNat - 48)) es0) =
      cs.foldl (fun a c => a * 10 + (c.toNat - 48)) (toVal es0) ∧
    (∀ e ∈ cs.foldl (fun es c =>
        operator_pluseq_uint 1 (operator_muleq_uint_el es 10) (c.toNat - 48)) es0,
      e < elM) ∧
    (cs.foldl (fun es c =>
        operator_pluseq_uint 1 (operator_muleq_uint_el es 10) (c.toNat - 48))
        es0).length = es0.length := by
  intro cs
  induction cs with
  | nil => intro es0 h1 _ _; exact ⟨rfl, h1, rfl⟩
  | cons c cs ih =>
    intro es0 hcanon hcs hbound
    rw [List.foldl_cons] at hbound
    have hc := hcs c (by simp)
    have hd : c.toNat - 48 < elM := by
      have h1 : c.toNat - 48 < 10 := by omega
      have h2 : (10 : Nat) < elM := by decide
      omega
    have hm_canon : ∀ x ∈ operator_muleq_uint_el es0 10, x < elM :=
      mulElLoop_canon es0 10 0
    have hm_len : (operator_muleq_uint_el es0 10).length = es0.length :=
      mulElLoop_length es0 10 0
    have hmv : toVal (operator_muleq_uint_el es0 10) =
        toVal es0 * 10 % elM ^ es0.length := by
      rw [show operator_muleq_uint_el es0 10 = mulElLoop es0 10 0 from rfl,
        mulElLoop_val es0 10 hcanon (by decide) 0 (by decide), Nat.zero_add]
    have h1val : toVal (operator_pluseq_uint 1 (operator_muleq_uint_el es0 10)
        (c.toNat - 48)) =
        (toVal es0 * 10 + (c.toNat - 48)) % elM ^ es0.length := by
      rw [pluseq1_val _ _ hm_canon hd, hm_len, hmv, Nat.mod_add_mod]
    have hb2 : cs.foldl (fun a c => a * 10 + (c.toNat - 48))
        (toVal es0 * 10 + (c.toNat - 48)) < elM ^ es0.length := hbound
    have hexact : toVal (operator_pluseq_uint 1 (operator_muleq_uint_el es0 10)
        (c.toNat - 48)) = toVal es0 * 10 + (c.toNat - 48) := by
      rw [h1val]
      apply Nat.mod_eq_of_lt
      have := horner_ge cs (toVal es0 * 10 + (c.toNat - 48))
      omega
    have h1canon : ∀ x ∈ operator_pluseq_uint 1 (operator_muleq_uint_el es0 10)
        (c.toNat - 48), x < elM := addLoop_canon _ _ _ _
    have h1len : (operator_pluseq_uint 1 (operator_muleq_uint_el es0 10)
        (c.toNat - 48)).length = es0.length := by
      rw [show operator_pluseq_uint 1 (operator_muleq_uint_el es0 10)
          (c.toNat - 48) =
          addLoop (min 1 (operator_muleq_uint_el es0 10).length)
            (operator_muleq_uint_el es0 10) (c.toNat - 48) 0 from rfl,
        addLoop_length, hm_len]
    obtain ⟨r1, r2, r3⟩ := ih _ h1canon (fun x hx => hcs x (by simp [hx]))
      (by rw [hexact, h1len]; exact hb2)
    rw [List.foldl_cons, List.foldl_cons]
    refine ⟨?_, r2, by rw [r3, h1len]⟩
    rw [r1, hexact]

/-- Canonical limb lists of equal length with equal value are equal. -/
theorem toVal_inj : ∀ (xs ys : List Nat), xs.length = ys.length →
    (∀ e ∈ xs, e < elM) → (∀ e ∈ ys, e < elM) →
    toVal xs = toVal ys → xs = ys := by
  intro xs
  induction xs with
  | nil =>
    intro ys hlen _ _ _
    cases ys with
    | nil => rfl
    | cons y ys2 => simp at hlen
  | cons x xs ih =>
    intro ys hlen hx hy hval
    cases ys with
    | nil => simp at hlen
    | cons y ys2 =>
      have hxx : x < elM := hx x (by simp)
      have hyy : y < elM := hy y (by simp)
      have hv : x + elM * toVal xs = y + elM * toVal ys2 := hval
      have hxy : x = y := by
        have h1 : (x + elM * toVal xs) % elM = x := by
          rw [Nat.add_mul_mod_self_left, Nat.mod_eq_of_lt hxx]
        have h2 : (y + elM * toVal ys2) % elM = y := by
          rw [Nat.add_mul_mod_self_left, Nat.mod_eq_of_lt hyy]
        rw [← h1, ← h2, hv]
      subst hxy
      have hT : toVal xs = toVal ys2 :=
        Nat.eq_of_mul_eq_mul_left (show 0 < elM by decide) (by omega)
      rw [ih ys2 (by simpa using hlen) (fun e he => hx e (by simp [he]))
        (fun e he => hy e (by simp [he])) hT]

/-- `set_zero()` yields the zero value. -/
theorem toVal_replicate_zero (n : Nat) : toVal (List.replicate n 0) = 0 := by
  induction n with
  | zero => rfl
  | succ n ih =>
    show (0 : Nat) + elM * toVal (List.replicate n 0) = 0
    rw [ih]
    simp

/-- The zeroed limb list is canonical. -/
theorem canon_replicate (n : Nat) : ∀ e ∈ List.replicate n 0, e < elM := by
  intro e he
  rw [List.eq_of_mem_replicate he]
  decide

/-- C5: rendering a magnitude to its decimal string and parsing the string
back through `set_from_str` reproduces the magnitude exactly (same limbs,
hence the same value), and the zero value renders as exactly `"0"`. -/
theorem string_round_trip (es : List Nat) (hes : ∀ e ∈ es, e < elM) :
    set_from_str es.length (uint_to_string es) = some es ∧
      uint_to_string (List.replicate es.length 0) = "0" := by
  constructor
  · obtain ⟨hdv, hdig⟩ := strLoop_spec (toVal es) es rfl hes
    have hdigrev : ∀ c ∈ (strLoop es).reverse, 48 ≤ c.toNat ∧ c.toNat ≤ 57 :=
      fun c hc => hdig c (List.mem_reverse.mp hc)
    show ((String.mk (strLoop es).reverse).data.foldlM _ (List.replicate es.length 0)) = _
    rw [show (String.mk (strLoop es).reverse).data = (strLoop es).reverse from rfl,
      parse_fold_some _ _ hdigrev]
    congr 1
    have hH : (strLoop es).reverse.foldl (fun a c => a * 10 + (c.toNat - 48))
        (toVal (List.replicate es.length 0)) = toVal es := by
      rw [toVal_replicate_zero, horner_reverse, hdv]
    obtain ⟨r1, r2, r3⟩ := parse_foldl_val (strLoop es).reverse
      (List.replicate es.length 0) (canon_replicate es.length) hdigrev
      (by rw [hH, List.length_replicate]; exact toVal_lt es hes)
    apply toVal_inj _ es (by rw [r3, List.length_replicate]) r2 hes
    rw [r1, hH]
  · have hz := toVal_replicate_zero es.length
    have hc := canon_replicate es.length
    rw [uint_to_string, strLoop_eq_small _ hc (by rw [hz]; omega), hz]
    decide

/-- Closed instance of `string_round_trip` at a concrete input. -/
theorem string_round_trip_witness :
    (∀ e ∈ [(12345 : Nat)], e < elM) ∧
      (set_from_str ([(12345 : Nat)]).length (uint_to_string [12345]) =
          some [12345] ∧
        uint_to_string (List.replicate ([(12345 : Nat)]).length 0) = "0") :=
  ⟨by decide, string_round_trip [12345] (by decide)⟩

/-- `ceil_constexpr` is the ceiling on nonnegative (exact) arguments. -/
theorem ceil_constexpr_eq (d : ℚ) (hd : 0 ≤ d) : ceil_constexpr d = ⌈d⌉ := by
  have hi : (if 0 ≤ d then (⌊d⌋ : Int) else ⌈d⌉) = ⌊d⌋ := if_pos hd
  rw [ceil_constexpr]
  simp only [hi]
  by_cases h : ((⌊d⌋ : Int) : ℚ) = d
  · rw [if_pos h, ← h, Int.ceil_intCast, Int.floor_intCast]
  · rw [if_neg h]
    have hne : d ≠ 0 := by
      intro h0
      exact h (by rw [h0]; norm_num)
    have hpos : 0 < d := lt_of_le_of_ne hd (Ne.symm hne)
    rw [if_pos hpos]
    have h1 : ⌈d⌉ ≤ ⌊d⌋ + 1 := Int.ceil_le_floor_add_one d
    have h2 : ⌊d⌋ < ⌈d⌉ := by
      have hf : (⌊d⌋ : ℚ) ≤ d := Int.floor_le d
      have hflt : (⌊d⌋ : ℚ) < d := lt_of_le_of_ne hf h
      have hcl : d ≤ (⌈d⌉ : ℚ) := Int.le_ceil d
      exact_mod_cast lt_of_lt_of_le hflt hcl
    omega

/-- C10: the rendering loop of `uint_to_string` writes at most
`ceil(N * log10 2)` digit characters (plus the terminator), so every write
into the `MAX_DIGITS + 1` buffer is in bounds; and `ceil_constexpr`
computes the exact ceiling on nonnegative arguments, so `MAX_DIGITS` is
that bound. -/
theorem digit_buffer_bound (es : List Nat) (hes : ∀ e ∈ es, e < elM)
    (hlen : 0 < es.length) :
    (strLoop es).length ≤
      (⌈((elBits * es.length : Nat) : ℝ) * Real.logb 10 2⌉).toNat ∧
      ∀ q : ℚ, 0 ≤ q → ceil_constexpr q = ⌈q⌉ := by
  refine ⟨?_, fun q hq => ceil_constexpr_eq q hq⟩
  have hNpos : 0 < elBits * es.length := by
    have h32 : 0 < elBits := by decide
    exact Nat.mul_pos h32 hlen
  have hc : (0:ℝ) < Real.logb 10 2 := Real.logb_pos (by norm_num) (by norm_num)
  have hNc_pos : (0:ℝ) < ((elBits * es.length : Nat) : ℝ) * Real.logb 10 2 :=
    mul_pos (by exact_mod_cast hNpos) hc
  have hceil_pos : 0 < ⌈((elBits * es.length : Nat) : ℝ) * Real.logb 10 2⌉ :=
    Int.ceil_pos.mpr hNc_pos
  have hD1 : 0 < (⌈((elBits * es.length : Nat) : ℝ) * Real.logb 10 2⌉).toNat := by
    omega
  have hDcast :
      (((⌈((elBits * es.length : Nat) : ℝ) * Real.logb 10 2⌉).toNat : Nat) : ℝ) =
      ((⌈((elBits * es.length : Nat) : ℝ) * Real.logb 10 2⌉ : Int) : ℝ) := by
    have h := Int.toNat_of_nonneg (le_of_lt hceil_pos)
    exact_mod_cast congrArg (fun z : Int => (z : ℝ)) h
  have hpow : (2:Nat) ^ (elBits * es.length) ≤
      10 ^ (⌈((elBits * es.length : Nat) : ℝ) * Real.logb 10 2⌉).toNat := by
    have hr : (((2:Nat) ^ (elBits * es.length) : Nat) : ℝ) ≤
        (((10:Nat) ^ (⌈((elBits * es.length : Nat) : ℝ) * Real.logb 10 2⌉).toNat : Nat) : ℝ) := by
      rw [Nat.cast_pow, Nat.cast_pow, Nat.cast_ofNat, Nat.cast_ofNat]
      have h10c : (10:ℝ) ^ Real.logb 10 2 = 2 :=
        Real.rpow_logb (by norm_num) (by norm_num) (by norm_num)
      have e1 : (2:ℝ) ^ (elBits * es.length) =
          (10:ℝ) ^ (Real.logb 10 2 * ((elBits * es.length : Nat) : ℝ)) := by
        rw [Real.rpow_mul (by norm_num : (0:ℝ) ≤ 10), h10c,
          Real.rpow_natCast]
      have e2 : (10:ℝ) ^ (Real.logb 10 2 * ((elBits * es.length : Nat) : ℝ)) ≤
          (10:ℝ) ^ ((((⌈((elBits * es.length : Nat) : ℝ) * Real.logb 10 2⌉).toNat : Nat)) : ℝ) := by
        apply (Real.rpow_le_rpow_left_iff (by norm_num : (1:ℝ) < 10)).mpr
        rw [hDcast, mul_comm]
        exact Int.le_ceil _
      have e3 : (10:ℝ) ^ ((((⌈((elBits * es.length : Nat) : ℝ) * Real.logb 10 2⌉).toNat : Nat)) : ℝ) =
          (10:ℝ) ^ ((⌈((elBits * es.length : Nat) : ℝ) * Real.logb 10 2⌉).toNat : Nat) :=
        Real.rpow_natCast 10 _
      rw [e1, ← e3]
      exact e2
    exact_mod_cast hr
  apply strLoop_length_le _ es hD1 hes
  calc toVal es < elM ^ es.length := toVal_lt es hes
    _ = 2 ^ (elBits * es.length) := by
        rw [show elM = 2 ^ elBits from rfl, ← pow_mul]
    _ ≤ _ := hpow

/-- Closed instance of `digit_buffer_bound` at a concrete input. -/
theorem digit_buffer_bound_witness :
    (∀ e ∈ [(5 : Nat)], e < elM) ∧ (0 : Nat) < ([(5 : Nat)]).length ∧
      ((strLoop [5]).length ≤
        (⌈((elBits * ([(5 : Nat)]).length : Nat) : ℝ) * Real.logb 10 2⌉).toNat ∧
      ∀ q : ℚ, 0 ≤ q → ceil_constexpr q = ⌈q⌉) :=
  ⟨by decide, by decide, digit_buffer_bound [5] (by decide) (by decide)⟩

end Bifsi
